import Mathlib

/-!
Shallow embedding of the bot repository's content-mirroring pipeline
(`forum_to_twitter.py`, `twitter_to_forum.py`).  Strings are modelled as
`List Char`; external library functions (profanity censoring, HTML text
extraction, timestamp parsing) are passed in as arbitrary function
parameters, so every theorem quantifies over them.
-/

namespace Bots

abbrev Str := List Char

/-- Character class of Python `str.strip(' \n')`: a space or a newline. -/
def isStripChar (c : Char) : Bool := c == ' ' || c == '\n'

/-- Python `text.strip(' \n')`: remove leading and trailing spaces/newlines. -/
def stripSp (t : Str) : Str :=
  ((t.dropWhile isStripChar).reverse.dropWhile isStripChar).reverse

/-- ASCII reading of the regex word class: letters, digits, underscore. -/
def isWordChar (c : Char) : Bool := c.isAlphanum || c == '_'

/-- Whether a string starts with a word character. -/
def headIsWord : Str → Bool
  | [] => false
  | r :: _ => isWordChar r

/-- Scanner for `re.sub` with the at-sign-mention pattern (an at sign
followed by one or more word characters) and empty replacement: when
`skipping` is true the scanner is inside a matched mention's word-character
run and keeps dropping word characters; otherwise an at sign followed by a
word character starts a (dropped) match and any other character is kept. -/
def subMentionsGo (skipping : Bool) : Str → Str
  | [] => []
  | c :: rest =>
    if skipping && isWordChar c then
      subMentionsGo true rest
    else if c == '@' && headIsWord rest then
      subMentionsGo true rest
    else
      c :: subMentionsGo false rest

/-- Model of `re.sub` with the at-sign-mention pattern and empty
replacement, scanning left to right and removing each non-overlapping
maximal match (from `profanity_only`, `forum_to_twitter.py` line 28). -/
def subMentions (t : Str) : Str := subMentionsGo false t

/-- Model of `re.sub` deleting every non-word character
(from `profanity_only`, `forum_to_twitter.py` line 29). -/
def subNonWord (t : Str) : Str := t.filter isWordChar

/-- `profanity_only` from `forum_to_twitter.py` lines 27-30. -/
def profanity_only (t : Str) : Bool :=
  (subNonWord (subMentions t)).length == 0

end Bots

namespace Bots

/-- Decimal digits of a natural number with explicit descent fuel
(any fuel at least the number of digits yields the full rendering). -/
def natDigitsAux : Nat → Nat → Str
  | 0, _ => []
  | fuel + 1, n =>
    if n < 10 then [Char.ofNat (48 + n)]
    else natDigitsAux fuel (n / 10) ++ [Char.ofNat (48 + n % 10)]

/-- Decimal digits of a natural number, most significant first;
models Python `str` on a non-negative integer. -/
def natDigits (n : Nat) : Str := natDigitsAux (n + 1) n

/-- Python `str` applied to an `int` (decimal rendering, minus sign when
negative); used for the `str(self.uid)` fallback. -/
def intStr (n : Int) : Str :=
  if n < 0 then '-' :: natDigits (-n).toNat else natDigits n.toNat

/-- Python substring test `pat in t` on strings. -/
def containsSub (t pat : Str) : Bool :=
  (List.range (t.length + 1)).any (fun i => (t.drop i).take pat.length == pat)

/-- The `Categories` enumeration of `forum_to_twitter.py` lines 43-48. -/
inductive Category
  | BIOENERGETICS
  | CASE_STUDIES
  | NOOSPHERE
  | JUNKYARD
  | META
deriving DecidableEq, Repr

/-- Numeric value carried by each `Categories` member. -/
def Category.val : Category → Int
  | .BIOENERGETICS => 5
  | .CASE_STUDIES => 6
  | .NOOSPHERE => 7
  | .JUNKYARD => 8
  | .META => 9

/-- `CATEGORY_BLACKLIST = [Categories.JUNKYARD]` (`forum_to_twitter.py` line 96). -/
def CATEGORY_BLACKLIST : List Category := [Category.JUNKYARD]

/-- Python `==` between an `Enum` member and an `int`: `Enum.__eq__` falls back
to identity, so a member such as `Categories.JUNKYARD` is never equal to the
integer `8`.  This is the comparison `topic['cid'] not in CATEGORY_BLACKLIST`
performs element-wise. -/
def enumMemberEqInt (_c : Category) (_n : Int) : Bool := false

/-- `BOT_USERNAME = 'brad'` (`forum_to_twitter.py` line 99). -/
def BOT_USERNAME : Str := ['b', 'r', 'a', 'd']

/-- `IS_TWITTER_PREMIUM = False` (`forum_to_twitter.py` line 100). -/
def IS_TWITTER_PREMIUM : Bool := false

/-- `TWITTER_CHAR_LIMIT = 4_000 if IS_TWITTER_PREMIUM else 280` (line 101). -/
def TWITTER_CHAR_LIMIT : Nat := if IS_TWITTER_PREMIUM then 4000 else 280

/-- Opaque stand-in for a Python `datetime` value; `datetime.strptime` is
external, so theorems quantify over an arbitrary parse function into this
type. -/
structure PyDateTime where
  val : Str
deriving DecidableEq, Repr

/-- The `Post` dataclass (`forum_to_twitter.py` lines 51-68), after
`__post_init__` has run.  `text` is always set by `__post_init__`, so it is a
plain string here. -/
structure Post where
  uid : Int
  username : Str
  is_banned : Bool
  replies_to : Option Str
  date : PyDateTime
  content : Str
  text : Str
deriving DecidableEq, Repr

/-- Construction of a `Post`, inlining `__post_init__` (lines 61-68):
censor the username and fall back to `str(uid)` when the censored name is
profanity-only; censor `replies_to` when present (no fallback); set `text`
to the censored plain text of the content; censor the content.
`censor` (better_profanity) and `remove_html` (selectolax plus the newline
replacement) are external and passed as arbitrary functions. -/
def Post.init (censor remove_html : Str → Str) (uid : Int) (username : Str)
    (is_banned : Bool) (replies_to : Option Str) (date : PyDateTime)
    (content : Str) : Post :=
  let username := censor username
  let username := if profanity_only username then intStr uid else username
  let replies_to := replies_to.map censor
  let text := censor (remove_html content)
  let content := censor content
  ⟨uid, username, is_banned, replies_to, date, content, text⟩

/-- The `Topic` dataclass (`forum_to_twitter.py` lines 80-93). -/
structure Topic where
  id : Int
  title : Str
  author : Str
  author_uid : Int
  date : PyDateTime
  posts : List Post
deriving DecidableEq, Repr

/-- Construction of a `Topic`, inlining `__post_init__` (lines 89-93):
censor the title; censor the author and fall back to `str(author_uid)` when
the censored author is profanity-only. -/
def Topic.init (censor : Str → Str) (id : Int) (title author : Str)
    (author_uid : Int) (date : PyDateTime) (posts : List Post) : Topic :=
  let title := censor title
  let author := censor author
  let author := if profanity_only author then intStr author_uid else author
  ⟨id, title, author, author_uid, date, posts⟩

/-- `f'@⟨BOT_USERNAME⟩' in post.content`: the mention token. -/
def tagToken : Str := '@' :: BOT_USERNAME

/-- Whether a content string contains the mention token. -/
def containsTag (s : Str) : Bool := containsSub s tagToken

/-- `np.where(bs)[0]`: the indices at which a boolean list is true. -/
def whereTrue (bs : List Bool) : List Nat :=
  (List.range bs.length).filter (fun i => bs.getD i false)

/-- Indices of the posts whose content contains the mention token
(`forum_to_twitter.py` line 164). -/
def taggingIndices (posts : List Post) : List Nat :=
  whereTrue (posts.map (fun p => containsTag p.content))

/-- The comprehension `[post for i, post in enumerate(posts) if p i post]`,
with `n` the index of the first element. -/
def filterIdx {α : Type} (p : Nat → α → Bool) : Nat → List α → List α
  | _, [] => []
  | i, a :: as =>
    if p i a then a :: filterIdx p (i + 1) as else filterIdx p (i + 1) as

/-- Position of the last tagging post: `max(tagging_posts)` over the indices
found at line 164 (defined as a fold with neutral element 0, sound because
indices are naturals). -/
def lastTaggingIndex (posts : List Post) : Nat :=
  (taggingIndices posts).foldl max 0

/-- `postprocess_posts` (`forum_to_twitter.py` lines 162-173): drop posts at
or after the last tagging post (with the `[999]` sentinel when no post tags
the bot), then drop posts by banned users, then drop profanity-only posts. -/
def postprocess_posts (posts : List Post) : List Post :=
  let tagging := taggingIndices posts
  let tagging := if tagging.isEmpty then [999] else tagging
  let m := tagging.foldl max 0
  let posts := filterIdx (fun i _ => !(tagging.contains i) && decide (i < m)) 0 posts
  let posts := posts.filter (fun p => !p.is_banned)
  posts.filter (fun p => !(profanity_only p.text))

/-- One topic reference inside a mention search hit (`post['topic']`). -/
structure MentionTopic where
  slug : Str
  cid : Int
deriving DecidableEq, Repr

/-- One mention search hit (`post` in `mentions['posts']`). -/
structure MentionPost where
  topic : MentionTopic
deriving DecidableEq, Repr

/-- One page of mention search results (`get_recent_mentions` response). -/
structure Mentions where
  multiplePages : Bool
  pageCount : Nat
  posts : List MentionPost
deriving DecidableEq, Repr

/-- `list(set(xs))`: the distinct elements; Python's set order is
unspecified, modelled as first-occurrence deduplication. -/
def pySetList (xs : List Str) : List Str := xs.eraseDups

/-- `extract_topics` (`forum_to_twitter.py` lines 145-159).  The network
fetch of further result pages is abstracted as `get_recent_mentions`.
Note `range(2, pageCount+1)` enumerates `pageCount - 1` pages starting at 2,
so on the multi-page path the first page's own hits are never collected. -/
def extract_topics (get_recent_mentions : Nat → Mentions)
    (mentions : Mentions) : List Str :=
  let topics :=
    if mentions.multiplePages then
      ((List.range' 2 (mentions.pageCount - 1)).map
        (fun page => (get_recent_mentions page).posts.map (·.topic))).flatten
    else
      mentions.posts.map (·.topic)
  let topic_slugs :=
    (topics.filter
      (fun t => !(CATEGORY_BLACKLIST.any (fun c => enumMemberEqInt c t.cid)))).map
      (·.slug)
  pySetList topic_slugs

/-- One raw post record on a topic page (`page['posts'][i]`). -/
structure RawPost where
  uid : Int
  username : Str
  banned : Bool
  parent_username : Option Str
  content : Str
deriving DecidableEq, Repr

/-- One topic page as returned by the forum API (`get_page` response). -/
structure PageData where
  tid : Int
  title : Str
  author_username : Str
  author_uid : Int
  timestampISO : Str
  pageCount : Nat
  posts : List RawPost
deriving DecidableEq, Repr

/-- `extract_posts` (`forum_to_twitter.py` lines 200-210): build a `Post`
from each raw record of a page; every post's `date` is parsed from the
page-level `timestampISO`.  `strptime` is external and passed in. -/
def extract_posts (censor remove_html : Str → Str)
    (strptime : Str → PyDateTime) (page : PageData) : List Post :=
  page.posts.map (fun p =>
    Post.init censor remove_html p.uid p.username p.banned p.parent_username
      (strptime page.timestampISO) p.content)

/-- `compile_posts_into_topic` (`forum_to_twitter.py` lines 176-229),
with the HTTP fetch abstracted as `fetch`: `fetch none` is the request for
the bare topic URL, `fetch (some i)` the request with the page-`i` query.
Returns the assembled topic together with the list of page requests issued,
in order.  Mirroring the source, the first page is fetched once for
metadata and the loop then fetches every page from 1 through `pageCount`. -/
def compile_posts_into_topic (censor remove_html : Str → Str)
    (strptime : Str → PyDateTime) (fetch : Option Nat → PageData) :
    Topic × List (Option Nat) :=
  let page := fetch none
  let page_count := page.pageCount
  let id := page.tid
  let title := page.title
  let author := page.author_username
  let author_uid := page.author_uid
  let date := strptime page.timestampISO
  let posts := extract_posts censor remove_html strptime page
  let st := (List.range' 1 page_count).foldl
    (fun (st : List Post × List (Option Nat)) i =>
      let pg := fetch (some i)
      (st.1 ++ extract_posts censor remove_html strptime pg, st.2 ++ [some i]))
    (posts, [none])
  (Topic.init censor id title author author_uid date (postprocess_posts st.1),
   st.2)

/-- Scanner for `re.findall` with the pattern matching exactly `L`
arbitrary-except-newline characters.  `skip` counts characters still to be
consumed by the most recent match; at `skip = 0` the scanner tries to match
at the current position: if the next `L` characters exist and none is a
newline, it emits them and skips past them, otherwise it advances one
character.  Only used with `1 ≤ L` (see `pyFindall`). -/
def findallGo (L : Nat) : Nat → Str → List Str
  | _, [] => []
  | skip + 1, _ :: rest => findallGo L skip rest
  | 0, c :: rest =>
    if L ≤ rest.length + 1 && ((c :: rest).take L).all (fun x => !(x == '\n')) then
      (c :: rest).take L :: findallGo L (L - 1) rest
    else
      findallGo L 0 rest

/-- The window scan started at the beginning of the text. -/
def findallAux (L : Nat) (t : Str) : List Str := findallGo L 0 t

/-- `re.findall` of the fixed-width-window pattern used at
`forum_to_twitter.py` line 236.  A zero-width pattern matches the empty
string at every position, as in Python. -/
def pyFindall (t : Str) (L : Nat) : List Str :=
  if L = 0 then List.replicate (t.length + 1) [] else findallAux L t

/-- Whether `pat` occurs in `t` starting at index `i`. -/
def isOccur (t pat : Str) (i : Nat) : Bool := (t.drop i).take pat.length == pat

/-- Downward scan used by `pyRfind`: the largest `j ≤ i` at which `pat`
occurs, if any. -/
def rfindAux (t pat : Str) : Nat → Option Nat
  | 0 => if isOccur t pat 0 then some 0 else none
  | i + 1 => if isOccur t pat (i + 1) then some (i + 1) else rfindAux t pat i

/-- Python `t.rfind(pat)`: highest index of an occurrence, `-1` if absent
(`t.rfind('')` is `len(t)`). -/
def pyRfind (t pat : Str) : Int :=
  match rfindAux t pat t.length with
  | some i => (i : Int)
  | none => -1

/-- Python slicing `t[e:]` for a possibly negative start index. -/
def pySliceFrom (t : Str) (e : Int) : Str :=
  if 0 ≤ e then t.drop e.toNat else t.drop ((t.length : Int) + e).toNat

/-- `split_text_on_words` (`forum_to_twitter.py` lines 232-243).  Returns
`none` exactly when the source raises `IndexError` on `lines[-1]` (the
window scan found no window at all). -/
def split_text_on_words (text : Str) (char_limit : Nat) : Option (List Str) :=
  if text.length ≤ char_limit then some [stripSp text]
  else
    let lines := (pyFindall text char_limit).map stripSp
    match lines.getLast? with
    | none => none
    | some last =>
      let ending_idx : Int := pyRfind text last + (last.length : Int)
      let maybe_last_line := stripSp (pySliceFrom text ending_idx)
      some (if maybe_last_line.isEmpty then lines else lines ++ [maybe_last_line])

/-- The spec's reassembly property for the segmenter, written from its
words: the chunks re-join to the source text once the whitespace trimmed at
each chunk boundary is ignored.  `recon t cs` holds iff `t` can be cut into
consecutive pieces, one per chunk, each of which strips (of spaces and
newlines) to its chunk. -/
def recon : Str → List Str → Bool
  | t, [] => t.isEmpty
  | t, c :: cs =>
    (List.range (t.length + 1)).any
      (fun i => stripSp (t.take i) == c && recon (t.drop i) cs)

/-- Side condition for the amended segmenter claim: the trimmed final
fixed-width window does not recur in the text after the windows it was cut
from, i.e. the `rfind` at line 238 lands inside the window region. -/
def noRecurrence (text : Str) (L : Nat) : Bool :=
  match ((pyFindall text L).map stripSp).getLast? with
  | none => true
  | some last =>
    decide (pyRfind text last + (last.length : Int) ≤ ((L * (pyFindall text L).length : Nat) : Int))

/-- A tweet status record, with the fields `Tweet.__init__`
(`twitter_to_forum.py` lines 30-43) reads.  `full_text` and `text` are the
optional results of `status_dict.get`; `created_at` is kept as the raw
string handed to `datetime.strptime`. -/
structure StatusDict where
  id : Int
  user_screen_name : Str
  user_name : Str
  full_text : Option Str
  text : Option Str
  created_at : Str
  in_reply_to_status_id : Option Int
  in_reply_to_user_id : Option Int
  in_reply_to_screen_name : Option Str
  is_quote_status : Bool
  entities_media : Option (List Str)
deriving DecidableEq, Repr

/-- The `Tweet` entity built by `Tweet.__init__`. -/
structure Tweet where
  id : Int
  user : Str
  user_tag : Str
  text : Str
  created_at : PyDateTime
  in_reply_to_status_id : Option Int
  in_reply_to_user_id : Option Int
  in_reply_to_screen_name : Option Str
  is_quote : Bool
  media : Option (List Str)
deriving DecidableEq, Repr

/-- `Tweet.__init__` (`twitter_to_forum.py` lines 30-43): resolve the text
as `status_dict.get('full_text', status_dict.get('text'))` and raise
`ValueError` when it is `None`; otherwise build the entity.  `strptime` is
external and passed in (its input is assumed well-formed per the interface,
so it is modelled total). -/
def Tweet.init (strptime : Str → PyDateTime) (status_dict : StatusDict) :
    Except Str Tweet :=
  let text? :=
    match status_dict.full_text with
    | some t => some t
    | none => status_dict.text
  match text? with
  | none => Except.error ['V', 'a', 'l', 'u', 'e', 'E', 'r', 'r', 'o', 'r']
  | some t =>
    Except.ok
      { id := status_dict.id
        user := status_dict.user_screen_name
        user_tag := status_dict.user_name
        text := t
        created_at := strptime status_dict.created_at
        in_reply_to_status_id := status_dict.in_reply_to_status_id
        in_reply_to_user_id := status_dict.in_reply_to_user_id
        in_reply_to_screen_name := status_dict.in_reply_to_screen_name
        is_quote := status_dict.is_quote_status
        media := status_dict.entities_media }

/-- `MyStreamListener.__save_tweet_id` (`twitter_to_forum.py` lines
149-151), i.e. the ledger's `record`: append the line `f'⟨tweet_id⟩,'` to
the ids file (the written `'\n'` terminates the line; the file is modelled
as its list of lines). -/
def save_tweet_id (tweet_id : Int) (file : List Str) : List Str :=
  file ++ [intStr tweet_id ++ [',']]

/-- The `id` column produced by `pd.read_csv(IDS_FILE, names=['id'])` on
the ids file.  Blank lines are skipped (`skip_blank_lines`).  Each remaining
line is split on commas; since only one column name is given, pandas
assigns the trailing field of each row to the `id` column and turns the
leading extra fields into the row index.  An empty field parses as `NaN`,
modelled as `none`. -/
def pandasIdColumn (file : List Str) : List (Option Int) :=
  (file.filter (fun l => !(l.isEmpty))).map
    (fun l => (fun s => if s.isEmpty then none else (String.mk s).toInt?)
      ((l.splitOn ',').getLastD []))

/-- `MyStreamListener.__is_valid_comment` (`twitter_to_forum.py` lines
144-147): `df.loc[df['id'] == id_].empty` — valid iff no row of the parsed
`id` column equals the given id (a `NaN` entry never equals an int). -/
def is_valid_comment (id_ : Int) (file : List Str) : Bool :=
  !((pandasIdColumn file).contains (some id_))

/-- The spec's `is_processed`: the negation of `__is_valid_comment`. -/
def is_processed (id_ : Int) (file : List Str) : Bool :=
  !(is_valid_comment id_ file)

/-- Reference chunker used to characterise `findallAux` on newline-free
text: consecutive windows of exactly `L` characters, stopping before a
short remainder. -/
def chunksOf (L : Nat) (t : Str) : List Str :=
  if _h : 1 ≤ L ∧ L ≤ t.length then t.take L :: chunksOf L (t.drop L) else []
termination_by t.length
decreasing_by simp only [List.length_drop]; omega

/-- Number of full windows the reference chunker cuts. -/
def windowCount (L : Nat) (t : Str) : Nat := (chunksOf L t).length

/-- The final full window cut by the reference chunker. -/
def lastWindow (L : Nat) (t : Str) : Str :=
  (t.drop (L * (windowCount L t - 1))).take L

/-- The residue of the text after all full windows. -/
def tailRest (L : Nat) (t : Str) : Str := t.drop (L * windowCount L t)

/-- Concrete post with untagged, unbanned, non-profane content. -/
def demoPostA : Post :=
  ⟨1, ['a'], false, none, ⟨[]⟩, ['h', 'i'], ['h', 'i']⟩

/-- Concrete post whose content contains the mention token. -/
def demoPostB : Post :=
  ⟨2, ['b'], false, none, ⟨[]⟩, '@' :: BOT_USERNAME, ['y', 'o']⟩

/-- Concrete untagged post following the tagging post. -/
def demoPostC : Post :=
  ⟨3, ['c'], false, none, ⟨[]⟩, ['o', 'k'], ['o', 'k']⟩

/-- Concrete single-page mention result whose only hit lives in a topic of
category 8 (the `JUNKYARD` value). -/
def demoMentions : Mentions := ⟨false, 1, [⟨⟨['s'], 8⟩⟩]⟩

/-- Concrete topic page for the page-timestamp claim. -/
def demoPage : PageData :=
  ⟨10, ['t'], ['a', 'u'], 4, ['d', '0'], 1, [⟨1, ['u'], false, none, ['h', 'i']⟩]⟩

/-- The post extracted from `demoPage` with identity censor/HTML removal and
the raw-string timestamp parse. -/
def demoExtracted : Post :=
  Post.init (fun s => s) (fun s => s) 1 ['u'] false none ⟨['d', '0']⟩ ['h', 'i']

/-- First page of a concrete 3-page listing (reports `pageCount = 3`). -/
def demoPage1 : PageData :=
  ⟨10, ['t'], ['a', 'u'], 4, ['d', '1'], 3, [⟨1, ['u'], false, none, ['p', '1']⟩]⟩

/-- Second page of the concrete 3-page listing. -/
def demoPage2 : PageData :=
  ⟨10, ['t'], ['a', 'u'], 4, ['d', '2'], 3, [⟨2, ['u'], false, none, ['p', '2']⟩]⟩

/-- Third page of the concrete 3-page listing. -/
def demoPage3 : PageData :=
  ⟨10, ['t'], ['a', 'u'], 4, ['d', '3'], 3, [⟨3, ['u'], false, none, ['p', '3']⟩]⟩

/-- Fetch function of the concrete 3-page listing: the bare URL and the
page-1 query both serve page 1. -/
def demoFetch : Option Nat → PageData
  | none => demoPage1
  | some 1 => demoPage1
  | some 2 => demoPage2
  | some 3 => demoPage3
  | some _ => demoPage1

/-- Concrete status record with neither `full_text` nor `text`. -/
def demoStatusNoText : StatusDict :=
  ⟨1, ['u'], ['n'], none, none, ['c'], none, none, none, false, none⟩

/-- Concrete status record with a `full_text` value. -/
def demoStatusText : StatusDict :=
  ⟨1, ['u'], ['n'], some ['h', 'i'], none, ['c'], none, none, none, false, none⟩

end Bots

namespace Bots

theorem natDigitsAux_ne_nil (fuel n : Nat) : natDigitsAux (fuel + 1) n ≠ [] := by
  unfold natDigitsAux
  split
  · simp
  · simp

theorem natDigits_ne_nil (n : Nat) : natDigits n ≠ [] :=
  natDigitsAux_ne_nil n n

theorem intStr_ne_nil (n : Int) : intStr n ≠ [] := by
  unfold intStr
  split
  · simp
  · exact natDigits_ne_nil _

theorem profanity_only_nil : profanity_only [] = true := rfl

theorem ne_nil_of_not_profanity_only {s : Str} (h : profanity_only s = false) :
    s ≠ [] := by
  intro hn
  rw [hn, profanity_only_nil] at h
  cases h

/-- C3 (amended): the post-and-topic sanitizer rule as the code implements it: the
username and topic author get the censor-then-fallback treatment and are
never empty; the reply-target name is only censored. -/
theorem C3_amended_sanitizer (censor remove_html : Str → Str) (uid : Int)
    (username : Str) (is_banned : Bool) (replies_to : Option Str)
    (date : PyDateTime) (content : Str) (tid : Int) (title author : Str)
    (author_uid : Int) (tdate : PyDateTime) (tposts : List Post) :
    (Post.init censor remove_html uid username is_banned replies_to date
        content).username ≠ [] ∧
    (Post.init censor remove_html uid username is_banned replies_to date
        content).username
      = (if profanity_only (censor username) then intStr uid
         else censor username) ∧
    (Post.init censor remove_html uid username is_banned replies_to date
        content).replies_to = replies_to.map censor ∧
    (Topic.init censor tid title author author_uid tdate tposts).author ≠ [] ∧
    (Topic.init censor tid title author author_uid tdate tposts).author
      = (if profanity_only (censor author) then intStr author_uid
         else censor author) := by
  refine ⟨?_, rfl, rfl, ?_, rfl⟩
  · show (if profanity_only (censor username) then intStr uid
        else censor username) ≠ []
    rcases h : profanity_only (censor username) with _ | _
    · simpa [h] using ne_nil_of_not_profanity_only h
    · simpa [h] using intStr_ne_nil uid
  · show (if profanity_only (censor author) then intStr author_uid
        else censor author) ≠ []
    rcases h : profanity_only (censor author) with _ | _
    · simpa [h] using ne_nil_of_not_profanity_only h
    · simpa [h] using intStr_ne_nil author_uid

/-- C3 counterexample: the identifier-fallback sanitization
rule applies identically to reply-target names: an empty reply-target stays
the empty string, and a mention-only reply-target (which the rule would
replace by the uid) is returned unchanged. -/
theorem C3_counterexample :
    (Post.init (fun s => s) (fun s => s) 7 ['b', 'o', 'b'] false (some [])
        ⟨[]⟩ []).replies_to = some [] ∧
    (Post.init (fun s => s) (fun s => s) 7 ['b', 'o', 'b'] false
        (some ['@', 'b', 'o', 'b']) ⟨[]⟩ []).replies_to
      = some ['@', 'b', 'o', 'b'] ∧
    profanity_only [] = true ∧
    profanity_only ['@', 'b', 'o', 'b'] = true ∧
    intStr 7 = ['7'] := by
  decide

/-- C2: the category blacklist never excludes anything: the code compares the
integer `cid` against `Enum` members with Python `==`, which is false, so a
mention in a category-8 topic is still returned — contradicting both the
claim and the function's own docstring. -/
theorem C2_blacklist_bug :
    extract_topics (fun _ => demoMentions) demoMentions = [['s']] ∧
    demoMentions.posts.map (fun p => p.topic.cid) = [8] ∧
    Category.val Category.JUNKYARD = 8 ∧
    (∀ (f : Nat → Mentions) (m : Mentions) (t : MentionTopic),
      (!(CATEGORY_BLACKLIST.any (fun c => enumMemberEqInt c t.cid))) = true ∧
      extract_topics f m
        = pySetList
            (((if m.multiplePages then
                ((List.range' 2 (m.pageCount - 1)).map
                  (fun page => (f page).posts.map (·.topic))).flatten
              else m.posts.map (·.topic))).map (·.slug))) := by
  refine ⟨by decide, by decide, by decide, ?_⟩
  intro f m t
  have hfilter : ∀ (l : List MentionTopic),
      l.filter (fun u => !(CATEGORY_BLACKLIST.any (fun c => enumMemberEqInt c u.cid)))
        = l := by
    intro l
    apply List.filter_eq_self.mpr
    intro a _
    rfl
  exact ⟨rfl, by simp only [extract_topics, hfilter]⟩

/-- C6: the dedup ledger check never reports an id as processed: each recorded
line ends in a comma, so the pandas parse (single column name) puts the id
into the row index and leaves the `id` column `NaN`. -/
theorem C6_ledger_bug :
    is_processed 5 (save_tweet_id 5 []) = false ∧
    is_processed 5 (save_tweet_id 7 (save_tweet_id 5 [])) = false ∧
    save_tweet_id 5 [] = [['5', ',']] ∧
    pandasIdColumn (save_tweet_id 5 []) = [none] := by
  decide

/-- C7: tweet construction validates text content: it errors exactly when
neither `full_text` nor `text` is present, succeeds whenever one of them
is, and the constructed entity's text always comes from one of the two
fields. -/
theorem C7_tweet_validation (strptime : Str → PyDateTime) (s : StatusDict) :
    (s.full_text = none → s.text = none →
      ∃ e, Tweet.init strptime s = Except.error e) ∧
    (∀ t : Tweet, Tweet.init strptime s = Except.ok t →
      s.full_text = some t.text ∨ (s.full_text = none ∧ s.text = some t.text)) ∧
    (∀ txt, s.full_text = some txt →
      ∃ t, Tweet.init strptime s = Except.ok t ∧ t.text = txt) ∧
    (∀ txt, s.full_text = none → s.text = some txt →
      ∃ t, Tweet.init strptime s = Except.ok t ∧ t.text = txt) := by
  refine ⟨?_, ?_, ?_, ?_⟩
  · intro hf ht
    refine ⟨['V', 'a', 'l', 'u', 'e', 'E', 'r', 'r', 'o', 'r'], ?_⟩
    simp only [Tweet.init, hf, ht]
  · intro t h
    rcases hf : s.full_text with _ | ft
    · rcases ht : s.text with _ | tx
      · simp only [Tweet.init, hf, ht] at h
        simp at h
      · right
        simp only [Tweet.init, hf, ht] at h
        cases h
        exact ⟨rfl, rfl⟩
    · left
      simp only [Tweet.init, hf] at h
      cases h
      rfl
  · intro txt hf
    simp only [Tweet.init, hf]
    exact ⟨_, rfl, rfl⟩
  · intro txt hf ht
    simp only [Tweet.init, hf, ht]
    exact ⟨_, rfl, rfl⟩

theorem C7_witness :
    (∃ e, Tweet.init (fun s => ⟨s⟩) demoStatusNoText = Except.error e) ∧
    (∃ t, Tweet.init (fun s => ⟨s⟩) demoStatusText = Except.ok t ∧
      t.text = ['h', 'i']) :=
  ⟨(C7_tweet_validation (fun s => ⟨s⟩) demoStatusNoText).1 rfl rfl,
   (C7_tweet_validation (fun s => ⟨s⟩) demoStatusText).2.2.1 ['h', 'i'] rfl⟩

/-- C8: the segmenter on a text of length exactly the limit returns the single
trimmed chunk, and on the empty text returns the single empty chunk. -/
theorem C8_exact_limit (text : Str) (L : Nat) (h : text.length = L) :
    split_text_on_words text L = some [stripSp text] ∧
    split_text_on_words [] L = some [[]] := by
  constructor
  · unfold split_text_on_words
    rw [if_pos (le_of_eq h)]
  · unfold split_text_on_words
    rw [if_pos (by simp)]
    rfl

theorem C8_witness : split_text_on_words ['h', 'i', ' '] 3 = some [['h', 'i']] :=
  (C8_exact_limit ['h', 'i', ' '] 3 rfl).1

/-- C10: every post extracted from a topic page carries the page-level
timestamp as its creation date. -/
theorem C10_page_timestamp (censor remove_html : Str → Str)
    (strptime : Str → PyDateTime) (page : PageData) :
    ∀ p ∈ extract_posts censor remove_html strptime page,
      p.date = strptime page.timestampISO := by
  intro p hp
  simp only [extract_posts, List.mem_map] at hp
  obtain ⟨r, _, rfl⟩ := hp
  rfl

theorem C10_witness : demoExtracted.date = PyDateTime.mk ['d', '0'] :=
  C10_page_timestamp (fun s => s) (fun s => s) (fun s => ⟨s⟩) demoPage
    demoExtracted (by decide)

theorem filterIdx_sublist_take {α : Type} (p : Nat → α → Bool) (m : Nat)
    (hp : ∀ i a, p i a = true → i < m) :
    ∀ (l : List α) (n : Nat), List.Sublist (filterIdx p n l) (l.take (m - n)) := by
  intro l
  induction l with
  | nil => intro n; simp [filterIdx]
  | cons a as ih =>
    intro n
    by_cases h : p n a = true
    · have hn : n < m := hp n a h
      have hmn : m - n = (m - (n + 1)) + 1 := by omega
      rw [hmn, List.take_succ_cons]
      simp only [filterIdx, h, if_true]
      exact List.Sublist.cons₂ a (ih (n + 1))
    · simp only [filterIdx, h, if_false]
      rcases hmn : m - n with _ | k
      · have h0 : m - (n + 1) = 0 := by omega
        have h2 := ih (n + 1)
        rw [h0] at h2
        simpa using h2
      · have hk : m - (n + 1) = k := by omega
        have h2 := ih (n + 1)
        rw [hk] at h2
        rw [List.take_succ_cons]
        exact List.Sublist.cons a h2

theorem filterIdx_eq_take {α : Type} (p : Nat → α → Bool) (m : Nat)
    (hp : ∀ i a, p i a = decide (i < m)) :
    ∀ (l : List α) (n : Nat), filterIdx p n l = l.take (m - n) := by
  intro l
  induction l with
  | nil => intro n; simp [filterIdx]
  | cons a as ih =>
    intro n
    by_cases h : n < m
    · have hmn : m - n = (m - (n + 1)) + 1 := by omega
      rw [hmn, List.take_succ_cons]
      simp only [filterIdx, hp n a]
      rw [if_pos (decide_eq_true h), ih (n + 1)]
    · have h1 : m - n = 0 := by omega
      have h0 : m - (n + 1) = 0 := by omega
      simp only [filterIdx, hp n a]
      rw [if_neg (by simp [h]), ih (n + 1), h0, h1]
      simp

theorem taggingIndices_ne_nil (posts : List Post)
    (h : ∃ p ∈ posts, containsTag p.content = true) :
    taggingIndices posts ≠ [] := by
  obtain ⟨p, hp, htag⟩ := h
  obtain ⟨i, hi, rfl⟩ := List.mem_iff_getElem.mp hp
  have hmem : i ∈ taggingIndices posts := by
    unfold taggingIndices whereTrue
    rw [List.mem_filter]
    constructor
    · rw [List.mem_range, List.length_map]
      exact hi
    · rw [List.getD_eq_getElem?_getD, List.getElem?_map,
        List.getElem?_eq_getElem hi]
      exact htag
  exact List.ne_nil_of_mem hmem

theorem taggingIndices_eq_nil (posts : List Post)
    (h : ∀ p ∈ posts, containsTag p.content = false) :
    taggingIndices posts = [] := by
  unfold taggingIndices whereTrue
  apply List.filter_eq_nil_iff.mpr
  intro i hi
  rw [List.mem_range, List.length_map] at hi
  rw [List.getD_eq_getElem?_getD, List.getElem?_map, List.getElem?_eq_getElem hi]
  simp [h (posts[i]) (List.getElem_mem hi)]

/-- C4: the post filter drops everything at or after the last tagging post and
keeps the survivors in order (the output is a sublist of the prefix before
the last tagging index); on a three-post thread whose middle post alone
tags the bot, only the first post survives (when it is neither banned nor
profanity-only). -/
theorem C4_post_filter (posts : List Post)
    (h : ∃ p ∈ posts, containsTag p.content = true) :
    List.Sublist (postprocess_posts posts)
      (posts.take (lastTaggingIndex posts)) ∧
    (∀ A B C : Post, containsTag A.content = false →
      containsTag B.content = true → containsTag C.content = false →
      A.is_banned = false → profanity_only A.text = false →
      postprocess_posts [A, B, C] = [A]) := by
  constructor
  · have hne : taggingIndices posts ≠ [] := taggingIndices_ne_nil posts h
    have hie : (taggingIndices posts).isEmpty = false := by
      rcases hq : taggingIndices posts with _ | ⟨a, as⟩
      · exact absurd hq hne
      · rfl
    simp only [postprocess_posts, hie, Bool.false_eq_true, if_false]
    refine List.Sublist.trans (List.filter_sublist _)
      (List.Sublist.trans (List.filter_sublist _) ?_)
    have hs := filterIdx_sublist_take
      (fun i (_ : Post) => !((taggingIndices posts).contains i) &&
        decide (i < (taggingIndices posts).foldl max 0))
      ((taggingIndices posts).foldl max 0)
      (by
        intro i a hp
        rw [Bool.and_eq_true] at hp
        exact of_decide_eq_true hp.2)
      posts 0
    simpa using hs
  · intro A B C hA hB hC hb hp
    have hmap : List.map (fun p => containsTag p.content) [A, B, C]
        = [false, true, false] := by
      simp [hA, hB, hC]
    have ht : taggingIndices [A, B, C] = [1] := by
      unfold taggingIndices
      rw [hmap]
      rfl
    simp only [postprocess_posts, ht]
    norm_num [filterIdx]
    simp [List.filter, hb, hp]

theorem C4_witness : postprocess_posts [demoPostA, demoPostB, demoPostC]
    = [demoPostA] :=
  (C4_post_filter [demoPostA, demoPostB, demoPostC]
      ⟨demoPostB, by decide, by decide⟩).2
    demoPostA demoPostB demoPostC (by decide) (by decide) (by decide)
    (by decide) (by decide)

/-- C9: with no tagging post, the sentinel 999 governs the position trim: the
filter keeps exactly the first 999 posts (then applies the banned-author
and profanity-only filters), so any sequence of at most 999 posts survives
the trim in full. -/
theorem C9_sentinel (posts : List Post)
    (h : ∀ p ∈ posts, containsTag p.content = false) :
    postprocess_posts posts
      = ((posts.take 999).filter (fun p => !p.is_banned)).filter
          (fun p => !(profanity_only p.text)) ∧
    (posts.length ≤ 999 →
      postprocess_posts posts
        = (posts.filter (fun p => !p.is_banned)).filter
            (fun p => !(profanity_only p.text))) := by
  have ht : taggingIndices posts = [] := taggingIndices_eq_nil posts h
  have hfi : filterIdx
      (fun i (_ : Post) => !(([999] : List Nat).contains i) &&
        decide (i < ([999] : List Nat).foldl max 0)) 0 posts
      = posts.take 999 := by
    have hs := filterIdx_eq_take
      (fun i (_ : Post) => !(([999] : List Nat).contains i) &&
        decide (i < ([999] : List Nat).foldl max 0)) 999
      (by
        intro i a
        by_cases hi : i < 999
        · have h9 : ¬(i = 999) := by omega
          simp [List.contains, hi, h9]
        · simp [hi])
      posts 0
    simpa using hs
  have hmain : postprocess_posts posts
      = ((posts.take 999).filter (fun p => !p.is_banned)).filter
          (fun p => !(profanity_only p.text)) := by
    simp only [postprocess_posts, ht, List.isEmpty_nil, if_true]
    rw [hfi]
  refine ⟨hmain, fun hlen => ?_⟩
  rw [hmain, List.take_of_length_le hlen]

theorem C9_witness : postprocess_posts [demoPostA, demoPostC]
    = (([demoPostA, demoPostC].take 999).filter (fun p => !p.is_banned)).filter
        (fun p => !(profanity_only p.text)) :=
  (C9_sentinel [demoPostA, demoPostC] (by decide)).1

theorem compile_foldl (censor remove_html : Str → Str)
    (strptime : Str → PyDateTime) (fetch : Option Nat → PageData) :
    ∀ (l : List Nat) (a : List Post) (b : List (Option Nat)),
      l.foldl (fun (st : List Post × List (Option Nat)) i =>
        (st.1 ++ extract_posts censor remove_html strptime (fetch (some i)),
         st.2 ++ [some i])) (a, b)
      = (a ++ (l.map
            (fun i => extract_posts censor remove_html strptime
              (fetch (some i)))).flatten,
         b ++ l.map some) := by
  intro l
  induction l with
  | nil => intro a b; simp
  | cons x xs ih =>
    intro a b
    simp only [List.foldl_cons, List.map_cons, List.flatten_cons]
    rw [ih]
    simp [List.append_assoc]

/-- C5 (amended): the paginated assembler issues `pageCount + 1` requests — the bare-URL
metadata fetch followed by pages 1 through `pageCount` — and returns the
first page's posts followed by every looped page's posts in order (so page
1's posts appear twice), run through the post filter, with the thread
metadata taken from the first fetch. -/
theorem C5_amended_fetcher (censor remove_html : Str → Str)
    (strptime : Str → PyDateTime) (fetch : Option Nat → PageData) :
    (compile_posts_into_topic censor remove_html strptime fetch).2
      = none :: (List.range' 1 (fetch none).pageCount).map some ∧
    (compile_posts_into_topic censor remove_html strptime fetch).2.length
      = (fetch none).pageCount + 1 ∧
    (compile_posts_into_topic censor remove_html strptime fetch).1.posts
      = postprocess_posts
          (extract_posts censor remove_html strptime (fetch none) ++
            ((List.range' 1 (fetch none).pageCount).map
              (fun i => extract_posts censor remove_html strptime
                (fetch (some i)))).flatten) ∧
    (compile_posts_into_topic censor remove_html strptime fetch).1.id
      = (fetch none).tid ∧
    (compile_posts_into_topic censor remove_html strptime fetch).1.title
      = censor (fetch none).title ∧
    (compile_posts_into_topic censor remove_html strptime fetch).1.author
      = (if profanity_only (censor (fetch none).author_username)
         then intStr (fetch none).author_uid
         else censor (fetch none).author_username) ∧
    (compile_posts_into_topic censor remove_html strptime fetch).1.author_uid
      = (fetch none).author_uid ∧
    (compile_posts_into_topic censor remove_html strptime fetch).1.date
      = strptime (fetch none).timestampISO := by
  have hf := compile_foldl censor remove_html strptime fetch
    (List.range' 1 (fetch none).pageCount)
    (extract_posts censor remove_html strptime (fetch none)) [none]
  simp only [compile_posts_into_topic, hf]
  refine ⟨rfl, by simp, rfl, rfl, rfl, rfl, rfl, rfl⟩

/-- C5 counterexample: a concrete 3-page listing — the assembler issues 4 page requests, not 3,
and page 1's posts are duplicated in the output. -/
theorem C5_counterexample :
    (demoFetch none).pageCount = 3 ∧
    (compile_posts_into_topic (fun s => s) (fun s => s) (fun s => ⟨s⟩)
        demoFetch).2 = [none, some 1, some 2, some 3] ∧
    ¬((compile_posts_into_topic (fun s => s) (fun s => s) (fun s => ⟨s⟩)
        demoFetch).2.length = 3) ∧
    (compile_posts_into_topic (fun s => s) (fun s => s) (fun s => ⟨s⟩)
        demoFetch).1.posts
      = extract_posts (fun s => s) (fun s => s) (fun s => ⟨s⟩) demoPage1 ++
        extract_posts (fun s => s) (fun s => s) (fun s => ⟨s⟩) demoPage1 ++
        extract_posts (fun s => s) (fun s => s) (fun s => ⟨s⟩) demoPage2 ++
        extract_posts (fun s => s) (fun s => s) (fun s => ⟨s⟩) demoPage3 := by
  decide

theorem stripSp_nil : stripSp [] = [] := rfl

theorem stripSp_length_le (t : Str) : (stripSp t).length ≤ t.length := by
  unfold stripSp
  calc ((t.dropWhile isStripChar).reverse.dropWhile isStripChar).reverse.length
      = ((t.dropWhile isStripChar).reverse.dropWhile isStripChar).length :=
        List.length_reverse _
    _ ≤ (t.dropWhile isStripChar).reverse.length :=
        (List.dropWhile_sublist _).length_le
    _ = (t.dropWhile isStripChar).length := List.length_reverse _
    _ ≤ t.length := (List.dropWhile_sublist _).length_le

theorem stripSp_ws_append (a b : Str) (ha : ∀ c ∈ a, isStripChar c = true) :
    stripSp (a ++ b) = stripSp b := by
  unfold stripSp
  rw [List.dropWhile_append, List.dropWhile_eq_nil_iff.mpr ha]
  simp

theorem stripSp_append_ws (a b : Str) (hb : ∀ c ∈ b, isStripChar c = true) :
    stripSp (a ++ b) = stripSp a := by
  unfold stripSp
  by_cases h1 : a.dropWhile isStripChar = []
  · rw [List.dropWhile_append, h1, List.dropWhile_eq_nil_iff.mpr hb]
    simp [h1]
  · rw [List.dropWhile_append, if_neg (by simp [h1])]
    rw [List.reverse_append, List.dropWhile_append,
      List.dropWhile_eq_nil_iff.mpr
        (by intro c hc; exact hb c (List.mem_reverse.mp hc))]
    simp

theorem stripSp_eq_nil_iff (t : Str) :
    stripSp t = [] ↔ ∀ c ∈ t, isStripChar c = true := by
  unfold stripSp
  rw [List.reverse_eq_nil_iff, List.dropWhile_eq_nil_iff]
  constructor
  · intro h c hc
    rw [← List.takeWhile_append_dropWhile isStripChar t] at hc
    rcases List.mem_append.mp hc with h1 | h1
    · exact List.mem_takeWhile_imp h1
    · exact h c (List.mem_reverse.mpr h1)
  · intro h c hc
    exact h c ((List.dropWhile_sublist _).subset (List.mem_reverse.mp hc))

theorem stripSp_decomp (t : Str) :
    ∃ a b, (∀ c ∈ a, isStripChar c = true) ∧ (∀ c ∈ b, isStripChar c = true) ∧
      t = a ++ stripSp t ++ b := by
  refine ⟨t.takeWhile isStripChar,
    ((t.dropWhile isStripChar).reverse.takeWhile isStripChar).reverse,
    ?_, ?_, ?_⟩
  · intro c hc
    exact List.mem_takeWhile_imp hc
  · intro c hc
    exact List.mem_takeWhile_imp (List.mem_reverse.mp hc)
  · rw [List.append_assoc]
    conv_lhs => rw [← List.takeWhile_append_dropWhile isStripChar t]
    congr 1
    conv_lhs => rw [← List.reverse_reverse (t.dropWhile isStripChar),
      ← List.takeWhile_append_dropWhile isStripChar
        (t.dropWhile isStripChar).reverse]
    rw [List.reverse_append]
    rfl

theorem recon_cons (p t : Str) (cs : List Str) (h : recon t cs = true) :
    recon (p ++ t) (stripSp p :: cs) = true := by
  unfold recon
  rw [List.any_eq_true]
  refine ⟨p.length, ?_, ?_⟩
  · rw [List.mem_range, List.length_append]
    omega
  · rw [Bool.and_eq_true]
    constructor
    · rw [List.take_left]
      exact beq_self_eq_true _
    · rw [List.drop_left]
      exact h

theorem recon_self_single (t : Str) : recon t [stripSp t] = true := by
  have h := recon_cons t [] [] rfl
  simpa using h

theorem recon_flatten (ws : List Str) (t : Str) (cs : List Str)
    (h : recon t cs = true) :
    recon (ws.flatten ++ t) (ws.map stripSp ++ cs) = true := by
  induction ws with
  | nil => simpa using h
  | cons w ws ih =>
    simp only [List.flatten_cons, List.map_cons, List.cons_append,
      List.append_assoc]
    exact recon_cons w _ _ ih

theorem findallGo_skip (L : Nat) :
    ∀ (t : Str) (s : Nat), findallGo L s t = findallGo L 0 (t.drop s) := by
  intro t
  induction t with
  | nil => intro s; cases s <;> rfl
  | cons c rest ih =>
    intro s
    cases s with
    | zero => rfl
    | succ s =>
      show findallGo L s rest = _
      rw [ih s, List.drop_succ_cons]

theorem findallGo_zero_mem_length (L : Nat) :
    ∀ (t : Str) (s : Nat) (w : Str), w ∈ findallGo L s t → w.length ≤ L := by
  intro t
  induction t with
  | nil =>
    intro s w hw
    cases s <;> cases hw
  | cons c rest ih =>
    intro s w hw
    cases s with
    | succ s => exact ih s w hw
    | zero =>
      simp only [findallGo] at hw
      split at hw
      · rcases List.mem_cons.mp hw with hw | hw
        · subst hw
          rw [List.length_take]
          exact Nat.min_le_left _ _
        · exact ih (L - 1) w hw
      · exact ih 0 w hw

theorem pyFindall_mem_length (t : Str) (L : Nat) :
    ∀ w ∈ pyFindall t L, w.length ≤ L := by
  intro w hw
  unfold pyFindall at hw
  by_cases h0 : L = 0
  · rw [if_pos h0] at hw
    rw [List.eq_of_mem_replicate hw]
    simp
  · rw [if_neg h0] at hw
    exact findallGo_zero_mem_length L t 0 w hw

theorem findallAux_nil (L : Nat) :
    ∀ (t : Str), t.length < L → findallAux L t = [] := by
  intro t
  induction t with
  | nil => intro _; rfl
  | cons c rest ih =>
    intro h
    rw [List.length_cons] at h
    have hc : decide (L ≤ rest.length + 1) = false := by
      simp only [decide_eq_false_iff_not]
      omega
    show findallGo L 0 (c :: rest) = []
    simp only [findallGo, hc, Bool.false_and, Bool.false_eq_true, if_false]
    exact ih (by omega)

theorem findallAux_step (L : Nat) (t : Str) (h1 : 1 ≤ L) (h2 : L ≤ t.length)
    (h3 : (t.take L).all (fun x => !(x == '\n')) = true) :
    findallAux L t = t.take L :: findallAux L (t.drop L) := by
  rcases t with _ | ⟨c, rest⟩
  · rw [List.length_nil] at h2
    omega
  · rw [List.length_cons] at h2
    have hc : decide (L ≤ rest.length + 1) = true := by
      rw [decide_eq_true_eq]
      omega
    show findallGo L 0 (c :: rest) = _
    simp only [findallGo, hc, h3, Bool.and_self, if_true]
    rw [findallGo_skip L rest (L - 1)]
    show _ = (c :: rest).take L :: findallAux L ((c :: rest).drop L)
    congr 2
    rcases L with _ | L0
    · omega
    · rw [List.drop_succ_cons]
      simp

theorem findallAux_eq_chunksOf (L : Nat) (h1 : 1 ≤ L) :
    ∀ (n : Nat) (t : Str), t.length ≤ n → '\n' ∉ t →
      findallAux L t = chunksOf L t := by
  intro n
  induction n with
  | zero =>
    intro t ht _
    have h0 : t = [] := List.length_eq_zero.mp (Nat.le_zero.mp ht)
    subst h0
    rw [chunksOf, dif_neg (by omega)]
    rfl
  | succ n ih =>
    intro t ht hnl
    by_cases h2 : L ≤ t.length
    · have h3 : (t.take L).all (fun x => !(x == '\n')) = true := by
        rw [List.all_eq_true]
        intro x hx
        have hxt : x ∈ t := List.mem_of_mem_take hx
        have : ¬(x = '\n') := fun he => hnl (he ▸ hxt)
        simp [this]
      rw [findallAux_step L t h1 h2 h3, chunksOf, dif_pos ⟨h1, h2⟩]
      congr 1
      apply ih
      · rw [List.length_drop]
        omega
      · intro hc
        exact hnl (List.drop_subset L t hc)
    · rw [findallAux_nil L t (by omega), chunksOf, dif_neg (by omega)]

theorem chunksOf_mem_length (L : Nat) (t : Str) :
    ∀ w ∈ chunksOf L t, w.length = L := by
  induction t using chunksOf.induct L with
  | case1 t h ih =>
    rw [chunksOf, dif_pos h]
    intro w hw
    rcases List.mem_cons.mp hw with hw | hw
    · subst hw
      rw [List.length_take]
      exact Nat.min_eq_left h.2
    · exact ih w hw
  | case2 t h =>
    rw [chunksOf, dif_neg h]
    intro w hw
    cases hw

theorem chunksOf_flatten (L : Nat) (t : Str) :
    (chunksOf L t).flatten ++ t.drop (L * (chunksOf L t).length) = t := by
  induction t using chunksOf.induct L with
  | case1 t h ih =>
    rw [chunksOf, dif_pos h]
    simp only [List.flatten_cons, List.length_cons]
    have harith : L * ((chunksOf L (t.drop L)).length + 1)
        = L + L * (chunksOf L (t.drop L)).length := by ring
    rw [harith, ← List.drop_drop, List.append_assoc, ih]
    exact List.take_append_drop L t
  | case2 t h =>
    rw [chunksOf, dif_neg h]
    simp

theorem chunksOf_tail_lt (L : Nat) (h1 : 1 ≤ L) (t : Str) :
    t.length < L * (chunksOf L t).length + L := by
  induction t using chunksOf.induct L with
  | case1 t h ih =>
    rw [chunksOf, dif_pos h]
    rw [List.length_cons, Nat.mul_add, Nat.mul_one]
    rw [List.length_drop] at ih
    have h2 := h.2
    revert ih
    generalize L * (chunksOf L (List.drop L t)).length = A
    intro ih
    omega
  | case2 t h =>
    rw [chunksOf, dif_neg h]
    have h2 : ¬ L ≤ t.length := fun hle => h ⟨h1, hle⟩
    simp only [List.length_nil, Nat.mul_zero, Nat.zero_add]
    omega

theorem chunksOf_mul_le (L : Nat) (t : Str) :
    L * (chunksOf L t).length ≤ t.length := by
  induction t using chunksOf.induct L with
  | case1 t h ih =>
    rw [chunksOf, dif_pos h]
    rw [List.length_cons, Nat.mul_add, Nat.mul_one]
    rw [List.length_drop] at ih
    have h2 := h.2
    revert ih
    generalize L * (chunksOf L (List.drop L t)).length = A
    intro ih
    omega
  | case2 t h =>
    rw [chunksOf, dif_neg h]
    simp

theorem chunksOf_ne_nil (L : Nat) (t : Str) (h1 : 1 ≤ L) (h2 : L ≤ t.length) :
    chunksOf L t ≠ [] := by
  rw [chunksOf, dif_pos ⟨h1, h2⟩]
  simp

theorem chunksOf_getLast?_aux (L : Nat) (h1 : 1 ≤ L) :
    ∀ (n : Nat) (t : Str), t.length ≤ n → L ≤ t.length →
      (chunksOf L t).getLast? = some (lastWindow L t) := by
  intro n
  induction n with
  | zero =>
    intro t ht h2
    omega
  | succ n ih =>
    intro t ht h2
    unfold lastWindow windowCount
    rw [chunksOf, dif_pos ⟨h1, h2⟩]
    by_cases h3 : L ≤ (t.drop L).length
    · have hih := ih (t.drop L) (by rw [List.length_drop]; omega) h3
      unfold lastWindow windowCount at hih
      rcases hq : chunksOf L (t.drop L) with _ | ⟨w, ws⟩
      · rw [chunksOf, dif_pos ⟨h1, h3⟩] at hq
        cases hq
      · rw [hq] at hih
        rw [List.getLast?_cons_cons, hih, List.drop_drop]
        congr 3
        simp only [List.length_cons, Nat.add_sub_cancel]
        ring
    · have hq : chunksOf L (t.drop L) = [] := by
        rw [chunksOf, dif_neg (fun hc => h3 hc.2)]
      rw [hq]
      simp

theorem rfindAux_sound (t pat : Str) :
    ∀ (i j : Nat), rfindAux t pat i = some j → j ≤ i ∧ isOccur t pat j = true := by
  intro i
  induction i with
  | zero =>
    intro j h
    unfold rfindAux at h
    by_cases h0 : isOccur t pat 0 = true
    · rw [if_pos h0] at h
      cases h
      exact ⟨Nat.le_refl 0, h0⟩
    · rw [if_neg h0] at h
      cases h
  | succ i ih =>
    intro j h
    unfold rfindAux at h
    by_cases h0 : isOccur t pat (i + 1) = true
    · rw [if_pos h0] at h
      cases h
      exact ⟨Nat.le_refl _, h0⟩
    · rw [if_neg h0] at h
      obtain ⟨hj, ho⟩ := ih j h
      exact ⟨Nat.le_succ_of_le hj, ho⟩

theorem rfindAux_ge (t pat : Str) (m : Nat) (hm : isOccur t pat m = true) :
    ∀ (i : Nat), m ≤ i → ∃ j, rfindAux t pat i = some j ∧ m ≤ j := by
  intro i
  induction i with
  | zero =>
    intro hmi
    have h0 : m = 0 := Nat.le_zero.mp hmi
    subst h0
    exact ⟨0, by unfold rfindAux; rw [if_pos hm], Nat.le_refl 0⟩
  | succ i ih =>
    intro hmi
    by_cases h0 : isOccur t pat (i + 1) = true
    · exact ⟨i + 1, by unfold rfindAux; rw [if_pos h0], hmi⟩
    · have hm1 : m ≤ i := by
        rcases Nat.lt_or_ge m (i + 1) with hlt | hge
        · omega
        · exfalso
          have he : m = i + 1 := by omega
          subst he
          exact h0 hm
      obtain ⟨j, hj, hmj⟩ := ih hm1
      exact ⟨j, by unfold rfindAux; rw [if_neg h0]; exact hj, hmj⟩

theorem pyRfind_spec (t pat : Str) (m : Nat) (hm : isOccur t pat m = true)
    (hml : m ≤ t.length) :
    ∃ j : Nat, pyRfind t pat = (j : Int) ∧ m ≤ j ∧ isOccur t pat j = true := by
  obtain ⟨j, hj, hmj⟩ := rfindAux_ge t pat m hm t.length hml
  obtain ⟨_, hocc⟩ := rfindAux_sound t pat t.length j hj
  exact ⟨j, by unfold pyRfind; rw [hj], hmj, hocc⟩

theorem rfindAux_self (t pat : Str) (i : Nat) (h : isOccur t pat i = true) :
    rfindAux t pat i = some i := by
  cases i with
  | zero =>
    unfold rfindAux
    rw [if_pos h]
  | succ n =>
    unfold rfindAux
    rw [if_pos h]

theorem pyRfind_nil_pat (t : Str) : pyRfind t [] = (t.length : Int) := by
  unfold pyRfind
  rw [rfindAux_self t [] t.length (by simp [isOccur])]

theorem windowCount_pos (L : Nat) (t : Str) (h1 : 1 ≤ L) (h2 : L ≤ t.length) :
    1 ≤ windowCount L t := by
  unfold windowCount
  have hne := chunksOf_ne_nil L t h1 h2
  rcases hq : chunksOf L t with _ | ⟨w, ws⟩
  · exact absurd hq hne
  · simp

theorem mul_pred_add (L k : Nat) (hk : 1 ≤ k) : L * (k - 1) + L = L * k := by
  rcases k with _ | k0
  · omega
  · simp only [Nat.add_sub_cancel]
    ring

theorem lastWindow_length (L : Nat) (t : Str) (h1 : 1 ≤ L) (h2 : L ≤ t.length) :
    (lastWindow L t).length = L := by
  unfold lastWindow
  rw [List.length_take, List.length_drop]
  have hmul : L * windowCount L t ≤ t.length := chunksOf_mul_le L t
  have harith := mul_pred_add L (windowCount L t) (windowCount_pos L t h1 h2)
  revert hmul harith
  generalize L * (windowCount L t - 1) = A
  generalize L * windowCount L t = B
  intro hmul harith
  omega

theorem drop_decomp (L : Nat) (t : Str) (h1 : 1 ≤ L) (h2 : L ≤ t.length) :
    t.drop (L * (windowCount L t - 1)) = lastWindow L t ++ tailRest L t := by
  unfold lastWindow tailRest
  rw [← mul_pred_add L (windowCount L t) (windowCount_pos L t h1 h2)]
  rw [← List.drop_drop]
  exact (List.take_append_drop L (t.drop (L * (windowCount L t - 1)))).symm

theorem tailRest_len_lt (L : Nat) (h1 : 1 ≤ L) (t : Str) :
    (tailRest L t).length < L := by
  unfold tailRest
  rw [List.length_drop]
  have hlt := chunksOf_tail_lt L h1 t
  unfold windowCount
  revert hlt
  generalize L * (chunksOf L t).length = A
  intro hlt
  omega

theorem text_eq_flatten_tail (L : Nat) (t : Str) :
    (chunksOf L t).flatten ++ tailRest L t = t := chunksOf_flatten L t

theorem lastWindow_occur (L : Nat) (t : Str) (h1 : 1 ≤ L) (h2 : L ≤ t.length)
    (a s b : Str) (hdec : lastWindow L t = a ++ s ++ b) :
    isOccur t s (L * (windowCount L t - 1) + a.length) = true := by
  simp only [isOccur, beq_iff_eq]
  rw [← List.drop_drop, drop_decomp L t h1 h2, hdec]
  rw [show (a ++ s ++ b) ++ tailRest L t
      = a ++ (s ++ (b ++ tailRest L t)) by simp [List.append_assoc]]
  rw [List.drop_left, List.take_left]

theorem drop_after_strip (L : Nat) (t : Str) (h1 : 1 ≤ L) (h2 : L ≤ t.length)
    (a s b : Str) (hdec : lastWindow L t = a ++ s ++ b) :
    t.drop (L * (windowCount L t - 1) + (a.length + s.length))
      = b ++ tailRest L t := by
  rw [← List.drop_drop, drop_decomp L t h1 h2, hdec]
  rw [show (a ++ s ++ b) ++ tailRest L t
      = (a ++ s) ++ (b ++ tailRest L t) by simp [List.append_assoc]]
  rw [show a.length + s.length = (a ++ s).length by rw [List.length_append]]
  rw [List.drop_left]

/-- C1 (amended): whenever `split_text_on_words` succeeds,
every chunk except possibly the final remainder has length at most the
limit; and for newline-free text whose trimmed final window does not recur
later in the text (`noRecurrence`), every chunk has length at most the
limit and the chunks re-join to the source text modulo the whitespace
trimmed at the chunk boundaries. -/
theorem C1_amended_segmenter (text : Str) (L : Nat) (chunks : List Str)
    (h : split_text_on_words text L = some chunks) :
    (∀ c ∈ chunks.dropLast, c.length ≤ L) ∧
    ('\n' ∉ text → noRecurrence text L = true →
      (∀ c ∈ chunks, c.length ≤ L) ∧ recon text chunks = true) := by
  by_cases hlen : text.length ≤ L
  · unfold split_text_on_words at h
    rw [if_pos hlen, Option.some_inj] at h
    subst h
    refine ⟨?_, ?_⟩
    · intro c hc
      simp at hc
    · intro _ _
      refine ⟨?_, recon_self_single text⟩
      intro c hc
      rw [List.mem_singleton] at hc
      subst hc
      exact le_trans (stripSp_length_le text) hlen
  · push_neg at hlen
    have h2 : (match ((pyFindall text L).map stripSp).getLast? with
        | none => (none : Option (List Str))
        | some last =>
          some (if (stripSp (pySliceFrom text
                (pyRfind text last + (last.length : Int)))).isEmpty
            then (pyFindall text L).map stripSp
            else (pyFindall text L).map stripSp
              ++ [stripSp (pySliceFrom text
                    (pyRfind text last + (last.length : Int)))]))
        = some chunks := by
      rw [← h]
      unfold split_text_on_words
      rw [if_neg (by omega)]
    rcases hlast : ((pyFindall text L).map stripSp).getLast? with _ | last
    · rw [hlast] at h2
      exact Option.noConfusion h2
    · rw [hlast] at h2
      have h3 : (if (stripSp (pySliceFrom text
              (pyRfind text last + (last.length : Int)))).isEmpty
            then (pyFindall text L).map stripSp
            else (pyFindall text L).map stripSp
              ++ [stripSp (pySliceFrom text
                    (pyRfind text last + (last.length : Int)))])
          = chunks := Option.some_inj.mp h2
      subst h3
      refine ⟨?_, ?_⟩
      · -- all but the last chunk are trimmed windows
        intro c hc
        by_cases hM : (stripSp (pySliceFrom text
            (pyRfind text last + (last.length : Int)))).isEmpty = true
        · rw [if_pos hM] at hc
          have hc2 : c ∈ (pyFindall text L).map stripSp :=
            (List.dropLast_sublist _).subset hc
          obtain ⟨w, hw, rfl⟩ := List.mem_map.mp hc2
          exact le_trans (stripSp_length_le w) (pyFindall_mem_length text L w hw)
        · rw [if_neg hM, List.dropLast_concat] at hc
          obtain ⟨w, hw, rfl⟩ := List.mem_map.mp hc
          exact le_trans (stripSp_length_le w) (pyFindall_mem_length text L w hw)
      · -- newline-free case
        intro hnl hnr
        by_cases hL0 : L = 0
        · exfalso
          subst hL0
          have hrep : pyFindall text 0 = List.replicate (text.length + 1) [] := by
            unfold pyFindall
            rw [if_pos rfl]
          have hlast0 : last = [] := by
            obtain ⟨ys, hys⟩ := List.getLast?_eq_some_iff.mp hlast
            have hmem : last ∈ (pyFindall text 0).map stripSp := by
              rw [hys]
              exact List.mem_append_right ys (List.mem_singleton.mpr rfl)
            rw [hrep, List.map_replicate] at hmem
            exact List.eq_of_mem_replicate hmem
          unfold noRecurrence at hnr
          rw [hlast] at hnr
          have hnr2 : decide (pyRfind text last + (last.length : Int)
              ≤ ((0 * (pyFindall text 0).length : Nat) : Int)) = true := hnr
          rw [hlast0, pyRfind_nil_pat] at hnr2
          have hle := of_decide_eq_true hnr2
          rw [Nat.zero_mul] at hle
          simp only [List.length_nil, Nat.cast_zero, Int.add_zero] at hle
          have hle2 : text.length ≤ 0 := by exact_mod_cast hle
          omega
        · -- the regular case: at least one full window was cut
          have h1 : 1 ≤ L := by omega
          have hLle : L ≤ text.length := by omega
          have hF : pyFindall text L = chunksOf L text := by
            unfold pyFindall
            rw [if_neg hL0]
            exact findallAux_eq_chunksOf L h1 text.length text (Nat.le_refl _) hnl
          have hgl : (chunksOf L text).getLast? = some (lastWindow L text) :=
            chunksOf_getLast?_aux L h1 text.length text (Nat.le_refl _) hLle
          have hlast2 : last = stripSp (lastWindow L text) := by
            rw [hF, List.getLast?_map, hgl] at hlast
            simpa using hlast.symm
          subst hlast2
          have hkpos : 1 ≤ windowCount L text := windowCount_pos L text h1 hLle
          obtain ⟨a, b, hwsa, hwsb, hdec⟩ := stripSp_decomp (lastWindow L text)
          have hsum : a.length + (stripSp (lastWindow L text)).length
              + b.length = L := by
            have hlw := lastWindow_length L text h1 hLle
            have hca := congrArg List.length hdec
            rw [List.length_append, List.length_append] at hca
            omega
          -- abbreviate the two products
          obtain ⟨P, hP⟩ : ∃ P, L * (windowCount L text - 1) = P := ⟨_, rfl⟩
          obtain ⟨K, hK⟩ : ∃ K, L * windowCount L text = K := ⟨_, rfl⟩
          have hPK : P + L = K := by
            rw [← hP, ← hK]
            exact mul_pred_add L (windowCount L text) hkpos
          -- occurrence of the trimmed final window at its own position
          have hocc0 : isOccur text (stripSp (lastWindow L text))
              (P + a.length) = true := by
            rw [← hP]
            exact lastWindow_occur L text h1 hLle a _ b hdec
          have hKle : K ≤ text.length := by
            rw [← hK]
            exact chunksOf_mul_le L text
          have hocc_le : P + a.length ≤ text.length := by omega
          obtain ⟨j, hj, hmj, hoccj⟩ :=
            pyRfind_spec text (stripSp (lastWindow L text)) (P + a.length)
              hocc0 hocc_le
          -- upper bound on the rfind landing point from noRecurrence
          unfold noRecurrence at hnr
          rw [hlast] at hnr
          have hnr2 : decide (pyRfind text (stripSp (lastWindow L text))
              + ((stripSp (lastWindow L text)).length : Int)
              ≤ ((L * (pyFindall text L).length : Nat) : Int)) = true := hnr
          have hup0 := of_decide_eq_true hnr2
          rw [hj, hF] at hup0
          have hup : j + (stripSp (lastWindow L text)).length ≤ K := by
            rw [← hK]
            unfold windowCount
            exact_mod_cast hup0
          -- the Python slice at the landing point
          have hslice : pySliceFrom text
              (pyRfind text (stripSp (lastWindow L text))
                + ((stripSp (lastWindow L text)).length : Int))
              = text.drop (j + (stripSp (lastWindow L text)).length) := by
            rw [hj]
            unfold pySliceFrom
            rw [if_pos (by positivity)]
            rw [← Nat.cast_add, Int.toNat_natCast]
          -- the stripped remainder equals the stripped tail residue
          have hbase : text.drop (P + (a.length
                + (stripSp (lastWindow L text)).length))
              = b ++ tailRest L text := by
            rw [← hP]
            exact drop_after_strip L text h1 hLle a _ b hdec
          have hstrip : stripSp (text.drop
              (j + (stripSp (lastWindow L text)).length))
              = stripSp (tailRest L text) := by
            have hd : j + (stripSp (lastWindow L text)).length
                = (P + (a.length + (stripSp (lastWindow L text)).length))
                  + (j - (P + a.length)) := by omega
            rw [hd, ← List.drop_drop, hbase,
              List.drop_append_of_le_length (by omega)]
            exact stripSp_ws_append _ _
              (fun c hc => hwsb c (List.drop_subset _ b hc))
          have hMeq : stripSp (pySliceFrom text
              (pyRfind text (stripSp (lastWindow L text))
                + ((stripSp (lastWindow L text)).length : Int)))
              = stripSp (tailRest L text) := by
            rw [hslice]
            exact hstrip
          rw [hMeq, hF]
          -- chunk lengths
          have hlens : ∀ c ∈ (chunksOf L text).map stripSp, c.length ≤ L := by
            intro c hc
            obtain ⟨w, hw, rfl⟩ := List.mem_map.mp hc
            exact le_of_le_of_eq (stripSp_length_le w)
              (chunksOf_mem_length L text w hw)
          have htail_lt : (stripSp (tailRest L text)).length < L :=
            lt_of_le_of_lt (stripSp_length_le _) (tailRest_len_lt L h1 text)
          by_cases hE : (stripSp (tailRest L text)).isEmpty = true
          · rw [if_pos hE]
            refine ⟨hlens, ?_⟩
            -- tail residue is all whitespace
            have hRws : ∀ c ∈ tailRest L text, isStripChar c = true :=
              (stripSp_eq_nil_iff _).mp (List.isEmpty_iff.mp hE)
            obtain ⟨ys, hys⟩ := List.getLast?_eq_some_iff.mp hgl
            have htext : text = ys.flatten ++ (lastWindow L text
                ++ tailRest L text) := by
              conv_lhs => rw [← text_eq_flatten_tail L text]
              rw [hys, List.flatten_append]
              simp [List.append_assoc]
            have hmap : (chunksOf L text).map stripSp
                = ys.map stripSp ++ [stripSp (lastWindow L text
                    ++ tailRest L text)] := by
              rw [hys, List.map_append]
              simp only [List.map_cons, List.map_nil]
              congr 2
              exact (stripSp_append_ws _ _ hRws).symm
            have hr := recon_flatten ys
              (lastWindow L text ++ tailRest L text)
              [stripSp (lastWindow L text ++ tailRest L text)]
              (recon_self_single _)
            rw [← htext, ← hmap] at hr
            exact hr
          · rw [if_neg hE]
            refine ⟨?_, ?_⟩
            · intro c hc
              rcases List.mem_append.mp hc with hc | hc
              · exact hlens c hc
              · rw [List.mem_singleton] at hc
                subst hc
                omega
            · have hr := recon_flatten (chunksOf L text) (tailRest L text)
                [stripSp (tailRest L text)] (recon_self_single _)
              rw [text_eq_flatten_tail L text] at hr
              exact hr

/-- C1 counterexample: the segmenter claim fails as stated — on a text containing a
newline the returned remainder chunk is longer than the limit, and on a
newline-free text whose trimmed final window recurs later the emitted
chunks do not re-join to the source text (a non-whitespace fragment is
lost). -/
theorem C1_counterexample :
    split_text_on_words ("xxxab\ncd".toList) 3
      = some ["xxx".toList, "ab\ncd".toList] ∧
    ¬(("ab\ncd".toList : Str).length ≤ 3) ∧
    split_text_on_words ("xyzab ab".toList) 3
      = some ["xyz".toList, "ab".toList] ∧
    recon ("xyzab ab".toList) ["xyz".toList, "ab".toList] = false := by
  decide

theorem C1_witness :
    recon ("hello world!".toList)
      ["hello".toList, "worl".toList, "d!".toList] = true :=
  ((C1_amended_segmenter ("hello world!".toList) 5
      ["hello".toList, "worl".toList, "d!".toList] (by decide)).2
    (by decide) (by decide)).2

end Bots
